import Mathlib

/-!
Verification of the `permute` repository (spatio-temporal cluster
permutation testing).

The development shallowly embeds the code of `graphs.py` and `stats.py`:

* `Permute.Graph` models the adjacency-list graph class `Graph`
  (`graphs.py`): vertex count `_V`, edge count `_E` and the sparse
  boolean adjacency matrix `_adj`, here a list of directed pairs.
* `Permute.mkGraph` models `Graph.__init__` (raises `ValueError` for a
  non-positive vertex count).
* `Permute.Graph.add_edge` models `Graph.add_edge`: the edge is inserted
  in both directions, and the insertion is skipped (no `_E` increment)
  when either direction is already present.
* `Permute.ccOf` / `Permute.CCData.id` model the class `CC` built on
  `scipy.sparse.csgraph.connected_components` with `directed=False`:
  component labels follow first-discovery order over vertices
  `0..V-1`, hence a component's label is determined by its smallest
  vertex; `CC.id` indexes a numpy array and therefore follows numpy
  integer-indexing semantics (negative indices wrap).
* `Permute.activeCells`, `Permute.buildMSTAGo` model
  `MaskedSpatioTemporalAdjacencyGraph.__init__` and `_create_maps`.
* `Permute.threshold_mask`, `Permute.find_clusters_key`,
  `Permute.compute_cluster_level_stats`, `Permute.compute_cluster_p_value`
  and `Permute.permLoop` model the per-key parts of `stats.py`.

Real-valued statistics are embedded as rationals: every property proved
here is order-theoretic or exact-arithmetic, so the choice of ordered
field is immaterial.
-/

namespace Permute

/-- Error taxonomy of the specification: `ValueError` on graph creation is
`invalidArgument`, numpy's `IndexError` is `indexOutOfRange`, a failed
dictionary lookup is `keyNotFound`. -/
inductive Err where
  | invalidArgument : Err
  | indexOutOfRange : Err
  | keyNotFound : Err
deriving DecidableEq, Repr

deriving instance DecidableEq for Except

/-- Model of the Python class `Graph` (graphs.py): number of vertices `_V`,
number of edges `_E`, and the boolean sparse adjacency matrix `_adj`
represented as the list of directed pairs `(v, w)` with `_adj[v, w]` set. -/
structure Graph where
  V : Nat
  E : Nat
  adj : List (Nat × Nat)
deriving DecidableEq, Repr

/-- Truthiness of `self._adj[v, w]`: is the directed entry `(v, w)` set? -/
def Graph.hasAdjB (g : Graph) (v w : Nat) : Bool :=
  decide ((v, w) ∈ g.adj)

/-- Model of `Graph.__init__`: `ValueError` when `n_verts <= 0`, otherwise a graph
with `n_verts` vertices and no edges. -/
def mkGraph (n : Int) : Except Err Graph :=
  if n ≤ 0 then .error .invalidArgument
  else .ok ⟨n.toNat, 0, []⟩

/-- Model of `Graph.add_edge`: if neither `_adj[v, w]` nor `_adj[w, v]` is set,
set both and increment `_E`; otherwise do nothing. -/
def Graph.add_edge (g : Graph) (v w : Nat) : Graph :=
  if g.hasAdjB v w || g.hasAdjB w v then g
  else ⟨g.V, g.E + 1, (v, w) :: (w, v) :: g.adj⟩

/-- The undirected edge relation of the sparse matrix: either direction is
set.  This is exactly the condition under which `add_edge` skips. -/
def Graph.hasEdge (g : Graph) (v w : Nat) : Prop :=
  (v, w) ∈ g.adj ∨ (w, v) ∈ g.adj

instance (g : Graph) (v w : Nat) : Decidable (g.hasEdge v w) := by
  unfold Graph.hasEdge; infer_instance

/-- Model of `Graph.adj(v)`: the neighbor list of `v`, i.e. the sorted column
indices of row `v` of the lil matrix (`self._adj.rows[v]`). -/
def Graph.adjList (g : Graph) (v : Nat) : List Nat :=
  (List.range g.V).filter (fun w => g.hasAdjB v w)

theorem hasAdjB_eq_true_iff (g : Graph) (v w : Nat) :
    g.hasAdjB v w = true ↔ (v, w) ∈ g.adj := by
  simp [Graph.hasAdjB]

theorem mem_adjList_iff (g : Graph) (v w : Nat) :
    w ∈ g.adjList v ↔ w < g.V ∧ (v, w) ∈ g.adj := by
  simp [Graph.adjList, List.mem_filter, hasAdjB_eq_true_iff, And.comm]

theorem hasEdge_symm {g : Graph} {v w : Nat} (h : g.hasEdge v w) :
    g.hasEdge w v := h.symm

theorem add_edge_V (g : Graph) (v w : Nat) : (g.add_edge v w).V = g.V := by
  unfold Graph.add_edge; split <;> rfl

theorem add_edge_of_hasEdge {g : Graph} {v w : Nat} (h : g.hasEdge v w) :
    g.add_edge v w = g := by
  unfold Graph.add_edge
  have : g.hasAdjB v w || g.hasAdjB w v := by
    rcases h with h | h
    · simp [hasAdjB_eq_true_iff, h]
    · simp [hasAdjB_eq_true_iff, h]
  simp [this]

theorem add_edge_of_not_hasEdge {g : Graph} {v w : Nat} (h : ¬ g.hasEdge v w) :
    g.add_edge v w = ⟨g.V, g.E + 1, (v, w) :: (w, v) :: g.adj⟩ := by
  unfold Graph.add_edge
  have hvw : g.hasAdjB v w = false := by
    simp only [Graph.hasAdjB, decide_eq_false_iff_not]
    exact fun hm => h (Or.inl hm)
  have hwv : g.hasAdjB w v = false := by
    simp only [Graph.hasAdjB, decide_eq_false_iff_not]
    exact fun hm => h (Or.inr hm)
  simp [hvw, hwv]

/-- After `add_edge v w` the undirected edge `{v, w}` is present, whether or
not it already was. -/
theorem hasEdge_add_edge_self (g : Graph) (v w : Nat) :
    (g.add_edge v w).hasEdge v w := by
  by_cases h : g.hasEdge v w
  · rw [add_edge_of_hasEdge h]; exact h
  · rw [add_edge_of_not_hasEdge h]
    exact Or.inl (List.mem_cons_self _ _)

/-- Characterization of the edges after one `add_edge` call. -/
theorem hasEdge_add_edge_iff (g : Graph) (v w a b : Nat) :
    (g.add_edge v w).hasEdge a b ↔
      g.hasEdge a b ∨ (a = v ∧ b = w) ∨ (a = w ∧ b = v) := by
  by_cases h : g.hasEdge v w
  · rw [add_edge_of_hasEdge h]
    constructor
    · exact Or.inl
    · rintro (hab | ⟨rfl, rfl⟩ | ⟨rfl, rfl⟩)
      · exact hab
      · exact h
      · exact hasEdge_symm h
  · rw [add_edge_of_not_hasEdge h]
    unfold Graph.hasEdge at *
    simp only [List.mem_cons, Prod.mk.injEq]
    tauto

/-- `add_edge` never removes an edge. -/
theorem hasEdge_mono {g : Graph} {a b : Nat} (v w : Nat)
    (h : g.hasEdge a b) : (g.add_edge v w).hasEdge a b := by
  rw [hasEdge_add_edge_iff]; exact Or.inl h

/-- C7: `Graph(n)` succeeds with `V = n`, `E = 0` for `n > 0` and raises
`ValueError` (`InvalidArgument`) for `n ≤ 0`. -/
theorem mkGraph_spec (n : Int) :
    (0 < n → ∃ g : Graph, mkGraph n = .ok g ∧ (g.V : Int) = n ∧ g.E = 0) ∧
    (n ≤ 0 → mkGraph n = .error .invalidArgument) := by
  constructor
  · intro hn
    refine ⟨⟨n.toNat, 0, []⟩, ?_, ?_, rfl⟩
    · unfold mkGraph
      rw [if_neg (not_le.mpr hn)]
    · simpa using Int.toNat_of_nonneg hn.le
  · intro hn
    unfold mkGraph
    rw [if_pos hn]

theorem mkGraph_spec_witness :
    (∃ g : Graph, mkGraph 3 = .ok g ∧ (g.V : Int) = 3 ∧ g.E = 0) ∧
    mkGraph (-2) = .error .invalidArgument :=
  ⟨(mkGraph_spec 3).1 (by decide), (mkGraph_spec (-2)).2 (by decide)⟩

/-- C4: on a graph whose adjacency is symmetric (as every graph reachable
through `add_edge` is), `add_edge v w` makes `w` a neighbor of `v` and
vice versa; a first add of the unordered pair increments `E` by exactly 1;
a repeated add, in either argument order, returns the graph unchanged. -/
theorem add_edge_spec (g : Graph) (v w : Nat) (hv : v < g.V) (hw : w < g.V)
    (hsym : ∀ a b : Nat, (a, b) ∈ g.adj → (b, a) ∈ g.adj) :
    w ∈ (g.add_edge v w).adjList v ∧ v ∈ (g.add_edge v w).adjList w ∧
    (¬ g.hasEdge v w → (g.add_edge v w).E = g.E + 1) ∧
    ((g.add_edge v w).add_edge v w = g.add_edge v w ∧
     (g.add_edge v w).add_edge w v = g.add_edge v w) := by
  refine ⟨?_, ?_, ?_, ?_, ?_⟩
  · rw [mem_adjList_iff, add_edge_V]
    refine ⟨hw, ?_⟩
    by_cases h : g.hasEdge v w
    · rw [add_edge_of_hasEdge h]
      rcases h with h | h
      · exact h
      · exact hsym _ _ h
    · rw [add_edge_of_not_hasEdge h]
      exact List.mem_cons_self _ _
  · rw [mem_adjList_iff, add_edge_V]
    refine ⟨hv, ?_⟩
    by_cases h : g.hasEdge v w
    · rw [add_edge_of_hasEdge h]
      rcases h with h | h
      · exact hsym _ _ h
      · exact h
    · rw [add_edge_of_not_hasEdge h]
      exact List.mem_cons_of_mem _ (List.mem_cons_self _ _)
  · intro h
    rw [add_edge_of_not_hasEdge h]
  · exact add_edge_of_hasEdge (hasEdge_add_edge_self g v w)
  · exact add_edge_of_hasEdge (hasEdge_symm (hasEdge_add_edge_self g v w))

/-- The (time, space) grid in row-major order, as `numpy` enumerates a
2-D array. -/
def cellList (nT nS : Nat) : List (Nat × Nat) :=
  (List.range nT).flatMap (fun t => (List.range nS).map (fun s => (t, s)))

/-- Model of `mask.nonzero()`: the active cells of the mask, in row-major order.
This is the enumeration `_create_maps` uses to assign linear indices. -/
def activeCells (mask : Nat → Nat → Int) (nT nS : Nat) : List (Nat × Nat) :=
  (cellList nT nS).filter (fun c => decide (mask c.1 c.2 ≠ 0))

/-- Model of `lin2mat`: linear vertex index to (time, space) pair (the dict
`_map_lin2mat`; the default value is never reached for in-range indices). -/
def lin2mat (cells : List (Nat × Nat)) (i : Nat) : Nat × Nat :=
  cells.getD i (0, 0)

/-- Model of `mat2lin`: (time, space) pair to linear vertex index (the dict
`_map_mat2lin`). -/
def mat2lin (cells : List (Nat × Nat)) (t s : Nat) : Nat :=
  @List.indexOf (Nat × Nat) instBEqOfDecidableEq (t, s) cells

theorem mem_cellList (nT nS t s : Nat) :
    (t, s) ∈ cellList nT nS ↔ t < nT ∧ s < nS := by
  simp [cellList, List.mem_flatMap, List.mem_map, List.mem_range]

theorem nodup_cellList (nT nS : Nat) : (cellList nT nS).Nodup := by
  unfold cellList
  rw [List.nodup_flatMap]
  refine ⟨fun t _ => ?_, ?_⟩
  · exact (List.nodup_range nS).map (fun a b h => (Prod.ext_iff.mp h).2)
  · refine (List.pairwise_lt_range nT).imp ?_
    intro a b hab x hxa hxb
    simp only [List.mem_map, List.mem_range] at hxa hxb
    rcases hxa with ⟨s1, -, rfl⟩
    rcases hxb with ⟨s2, -, h2⟩
    have hba : b = a := (Prod.ext_iff.mp h2).1
    exact absurd hba.symm (Nat.ne_of_lt hab)

theorem mem_activeCells (mask : Nat → Nat → Int) (nT nS t s : Nat) :
    (t, s) ∈ activeCells mask nT nS ↔ t < nT ∧ s < nS ∧ mask t s ≠ 0 := by
  simp [activeCells, List.mem_filter, mem_cellList, and_assoc]

theorem nodup_activeCells (mask : Nat → Nat → Int) (nT nS : Nat) :
    (activeCells mask nT nS).Nodup :=
  (nodup_cellList nT nS).filter _

/-- The spatial part of the loop body of
`MaskedSpatioTemporalAdjacencyGraph.__init__`:
`for v in spatial_adjacency.rows[i_space]` — scan the columns of row `s`
in ascending order and link `cur` to every spatial neighbor at the same
time carrying the same mask value. -/
def spatialPass (A : Nat → Nat → Bool) (mask : Nat → Nat → Int) (nS : Nat)
    (cells : List (Nat × Nat)) (g : Graph) (cur t s : Nat) : Graph :=
  (List.range nS).foldl
    (fun h v =>
      if A s v && decide (mask t v = mask t s) then
        h.add_edge cur (mat2lin cells t v)
      else h) g

/-- The loop body of `MaskedSpatioTemporalAdjacencyGraph.__init__` for one
vertex `cur` with coordinates `(t, s)`: spatial neighbors first, then the
temporal predecessor and successor when they carry the same mask value. -/
def processVert (A : Nat → Nat → Bool) (mask : Nat → Nat → Int) (nT nS : Nat)
    (cells : List (Nat × Nat)) (g : Graph) (cur t s : Nat) : Graph :=
  let g1 := spatialPass A mask nS cells g cur t s
  let g2 :=
    if 0 < t ∧ mask (t - 1) s = mask t s then
      g1.add_edge cur (mat2lin cells (t - 1) s)
    else g1
  if t < nT - 1 ∧ mask (t + 1) s = mask t s then
    g2.add_edge cur (mat2lin cells (t + 1) s)
  else g2

/-- Model of `MaskedSpatioTemporalAdjacencyGraph.__init__` after the base-graph
construction: start from the edgeless graph on the active cells and run
the loop over every linear vertex in order. -/
def buildMSTAGo (A : Nat → Nat → Bool) (mask : Nat → Nat → Int)
    (nT nS : Nat) : Graph :=
  let cells := activeCells mask nT nS
  (List.range cells.length).foldl
    (fun g cur =>
      processVert A mask nT nS cells g cur (lin2mat cells cur).1
        (lin2mat cells cur).2)
    ⟨cells.length, 0, []⟩

/-- Full constructor including the failure channel: `Graph.__init__` raises
`ValueError` exactly when the mask has no active cell. -/
def MSTAG (A : Nat → Nat → Bool) (mask : Nat → Nat → Int)
    (nT nS : Nat) : Except Err Graph :=
  if (activeCells mask nT nS).length = 0 then .error .invalidArgument
  else .ok (buildMSTAGo A mask nT nS)

theorem foldl_graph_V {α : Type} (f : Graph → α → Graph)
    (hf : ∀ g x, (f g x).V = g.V) (l : List α) (g : Graph) :
    (l.foldl f g).V = g.V := by
  induction l generalizing g with
  | nil => rfl
  | cons hd tl ih => rw [List.foldl_cons, ih, hf]

theorem spatialPass_V (A : Nat → Nat → Bool) (mask : Nat → Nat → Int)
    (nS : Nat) (cells : List (Nat × Nat)) (g : Graph) (cur t s : Nat) :
    (spatialPass A mask nS cells g cur t s).V = g.V := by
  have h1 : ∀ (h : Graph) (v : Nat),
      (if A s v && decide (mask t v = mask t s) then
        h.add_edge cur (mat2lin cells t v) else h).V = h.V := by
    intro h v; split <;> simp [add_edge_V]
  exact foldl_graph_V _ h1 _ _

theorem processVert_V (A : Nat → Nat → Bool) (mask : Nat → Nat → Int)
    (nT nS : Nat) (cells : List (Nat × Nat)) (g : Graph) (cur t s : Nat) :
    (processVert A mask nT nS cells g cur t s).V = g.V := by
  simp only [processVert]
  split <;> split <;> simp only [add_edge_V, spatialPass_V]

theorem buildMSTAGo_V (A : Nat → Nat → Bool) (mask : Nat → Nat → Int)
    (nT nS : Nat) :
    (buildMSTAGo A mask nT nS).V = (activeCells mask nT nS).length := by
  unfold buildMSTAGo
  exact foldl_graph_V _ (fun g cur => processVert_V A mask nT nS _ g cur _ _) _ _

/-- The edge relation the specification ascribes to
`MaskedSpatioTemporalAdjacencyGraph`: two cells are joined iff they carry
the same non-zero mask value and are spatial-adjacency neighbors at the
same time, or temporal ±1 neighbors at the same space. -/
def edgeSpec (A : Nat → Nat → Bool) (mask : Nat → Nat → Int)
    (c d : Nat × Nat) : Prop :=
  mask c.1 c.2 = mask d.1 d.2 ∧ mask c.1 c.2 ≠ 0 ∧
    ((c.1 = d.1 ∧ A c.2 d.2 = true) ∨
     (c.2 = d.2 ∧ (d.1 = c.1 + 1 ∨ c.1 = d.1 + 1)))

instance (A : Nat → Nat → Bool) (mask : Nat → Nat → Int) (c d : Nat × Nat) :
    Decidable (edgeSpec A mask c d) := by
  unfold edgeSpec; infer_instance

theorem edgeSpec_symm {A : Nat → Nat → Bool} {mask : Nat → Nat → Int}
    {c d : Nat × Nat} (hA : ∀ i j, A i j = A j i)
    (h : edgeSpec A mask c d) : edgeSpec A mask d c := by
  obtain ⟨h1, h2, h3⟩ := h
  refine ⟨h1.symm, h1 ▸ h2, ?_⟩
  rcases h3 with ⟨ht, ha⟩ | ⟨hs, ho⟩
  · refine Or.inl ⟨ht.symm, ?_⟩
    rw [hA]; exact ha
  · exact Or.inr ⟨hs.symm, ho.symm⟩

theorem mem_activeCells_pair {mask : Nat → Nat → Int} {nT nS : Nat}
    {c : Nat × Nat} :
    c ∈ activeCells mask nT nS ↔ c.1 < nT ∧ c.2 < nS ∧ mask c.1 c.2 ≠ 0 := by
  cases c; exact mem_activeCells _ _ _ _ _

/-- Facts about the `p`-th active cell: valid coordinates and non-zero
mask value. -/
theorem activeCells_getElem_facts (mask : Nat → Nat → Int) (nT nS p : Nat)
    (hp : p < (activeCells mask nT nS).length) :
    (activeCells mask nT nS)[p].1 < nT ∧
    (activeCells mask nT nS)[p].2 < nS ∧
    mask (activeCells mask nT nS)[p].1 (activeCells mask nT nS)[p].2 ≠ 0 :=
  mem_activeCells_pair.mp (List.getElem_mem hp)

theorem mat2lin_getElem (mask : Nat → Nat → Int) (nT nS q : Nat)
    (hq : q < (activeCells mask nT nS).length) :
    mat2lin (activeCells mask nT nS) (activeCells mask nT nS)[q].1
      (activeCells mask nT nS)[q].2 = q := by
  unfold mat2lin
  rw [Prod.mk.eta]
  exact List.indexOf_getElem (nodup_activeCells mask nT nS) q hq

theorem mat2lin_mem {mask : Nat → Nat → Int} {nT nS : Nat} {t s : Nat}
    (h : (t, s) ∈ activeCells mask nT nS) :
    ∃ hlt : mat2lin (activeCells mask nT nS) t s <
        (activeCells mask nT nS).length,
      (activeCells mask nT nS)[mat2lin (activeCells mask nT nS) t s] =
        (t, s) := by
  unfold mat2lin
  exact ⟨List.indexOf_lt_length.mpr h, List.getElem_indexOf _⟩

theorem foldl_pred_mono {α β : Type} {f : β → α → β} {Q : β → Prop}
    (mono : ∀ g y, Q g → Q (f g y)) (l : List α) {g : β} (hg : Q g) :
    Q (l.foldl f g) := by
  induction l generalizing g with
  | nil => exact hg
  | cons hd tl ih => exact ih (mono _ _ hg)

theorem foldl_pred_of_mem {α β : Type} {f : β → α → β} {Q : β → Prop}
    (mono : ∀ g y, Q g → Q (f g y)) {l : List α} {x : α} (hx : x ∈ l)
    (hQ : ∀ g, Q (f g x)) (g : β) : Q (l.foldl f g) := by
  induction l generalizing g with
  | nil => cases hx
  | cons hd tl ih =>
    rcases List.mem_cons.mp hx with rfl | hx'
    · exact foldl_pred_mono mono tl (hQ g)
    · exact ih hx' _

theorem ite_add_hasEdge_mono (c : Prop) [Decidable c] (x : Graph)
    (u v a b : Nat) (h : x.hasEdge a b) :
    (if c then x.add_edge u v else x).hasEdge a b := by
  split
  · exact hasEdge_mono _ _ h
  · exact h

theorem spatialPass_hasEdge_mono (A : Nat → Nat → Bool)
    (mask : Nat → Nat → Int) (nS : Nat) (cells : List (Nat × Nat))
    (g : Graph) (cur t s a b : Nat) (h : g.hasEdge a b) :
    (spatialPass A mask nS cells g cur t s).hasEdge a b := by
  have m1 : ∀ (h' : Graph) (v : Nat), h'.hasEdge a b →
      (if A s v && decide (mask t v = mask t s) then
        h'.add_edge cur (mat2lin cells t v) else h').hasEdge a b := by
    intro h' v hh
    split
    · exact hasEdge_mono _ _ hh
    · exact hh
  exact foldl_pred_mono m1 _ h

theorem processVert_hasEdge_mono (A : Nat → Nat → Bool)
    (mask : Nat → Nat → Int) (nT nS : Nat) (cells : List (Nat × Nat))
    (g : Graph) (cur t s a b : Nat) (h : g.hasEdge a b) :
    (processVert A mask nT nS cells g cur t s).hasEdge a b := by
  simp only [processVert]
  apply ite_add_hasEdge_mono
  apply ite_add_hasEdge_mono
  exact spatialPass_hasEdge_mono A mask nS cells g cur t s a b h

/-- Soundness invariant: every undirected edge of `g` joins two in-range
linear vertices whose cells are related by `edgeSpec`. -/
def edgeInv (A : Nat → Nat → Bool) (mask : Nat → Nat → Int)
    (nT nS : Nat) (g : Graph) : Prop :=
  ∀ a b : Nat, g.hasEdge a b →
    ∃ (ha : a < (activeCells mask nT nS).length)
      (hb : b < (activeCells mask nT nS).length),
      edgeSpec A mask ((activeCells mask nT nS)[a])
        ((activeCells mask nT nS)[b])

theorem edgeInv_add_edge {A : Nat → Nat → Bool} {mask : Nat → Nat → Int}
    {nT nS : Nat} (hA : ∀ i j, A i j = A j i) {g : Graph}
    (hInv : edgeInv A mask nT nS g) {v w : Nat}
    (hv : v < (activeCells mask nT nS).length)
    (hw : w < (activeCells mask nT nS).length)
    (hs : edgeSpec A mask ((activeCells mask nT nS)[v])
      ((activeCells mask nT nS)[w])) :
    edgeInv A mask nT nS (g.add_edge v w) := by
  intro a b hab
  rw [hasEdge_add_edge_iff] at hab
  rcases hab with hab | ⟨rfl, rfl⟩ | ⟨rfl, rfl⟩
  · exact hInv a b hab
  · exact ⟨hv, hw, hs⟩
  · exact ⟨hw, hv, edgeSpec_symm hA hs⟩

theorem spatialPass_edgeInv {A : Nat → Nat → Bool} {mask : Nat → Nat → Int}
    {nT nS : Nat} (hA : ∀ i j, A i j = A j i) {g : Graph} {cur t s : Nat}
    (hcur : cur < (activeCells mask nT nS).length)
    (hts : (activeCells mask nT nS)[cur] = (t, s))
    (hInv : edgeInv A mask nT nS g) :
    edgeInv A mask nT nS
      (spatialPass A mask nS (activeCells mask nT nS) g cur t s) := by
  have hmemc : (t, s) ∈ activeCells mask nT nS := by
    rw [← hts]; exact List.getElem_mem hcur
  obtain ⟨ht, hsb, hnz⟩ := (mem_activeCells mask nT nS t s).mp hmemc
  unfold spatialPass
  refine List.foldlRecOn _ _ g hInv ?_
  intro h hInvh v hv
  rw [List.mem_range] at hv
  split
  case _ hcond =>
    rw [Bool.and_eq_true, decide_eq_true_eq] at hcond
    obtain ⟨hAv, hmv⟩ := hcond
    have hmem : (t, v) ∈ activeCells mask nT nS :=
      (mem_activeCells mask nT nS t v).mpr ⟨ht, hv, by rw [hmv]; exact hnz⟩
    obtain ⟨hlt, hget⟩ := mat2lin_mem hmem
    refine edgeInv_add_edge hA hInvh hcur hlt ?_
    rw [hts, hget]
    exact ⟨hmv.symm, hnz, Or.inl ⟨rfl, hAv⟩⟩
  case _ => exact hInvh

theorem processVert_edgeInv {A : Nat → Nat → Bool} {mask : Nat → Nat → Int}
    {nT nS : Nat} (hA : ∀ i j, A i j = A j i) {g : Graph} {cur t s : Nat}
    (hcur : cur < (activeCells mask nT nS).length)
    (hts : (activeCells mask nT nS)[cur] = (t, s))
    (hInv : edgeInv A mask nT nS g) :
    edgeInv A mask nT nS
      (processVert A mask nT nS (activeCells mask nT nS) g cur t s) := by
  have hmemc : (t, s) ∈ activeCells mask nT nS := by
    rw [← hts]; exact List.getElem_mem hcur
  obtain ⟨ht, hsb, hnz⟩ := (mem_activeCells mask nT nS t s).mp hmemc
  have h1 := spatialPass_edgeInv hA hcur hts hInv
  simp only [processVert]
  have h2 : edgeInv A mask nT nS
      (if 0 < t ∧ mask (t - 1) s = mask t s then
        (spatialPass A mask nS (activeCells mask nT nS) g cur t s).add_edge
          cur (mat2lin (activeCells mask nT nS) (t - 1) s)
      else spatialPass A mask nS (activeCells mask nT nS) g cur t s) := by
    split
    case _ hc =>
      have hmem : (t - 1, s) ∈ activeCells mask nT nS :=
        (mem_activeCells mask nT nS (t - 1) s).mpr
          ⟨lt_of_le_of_lt (Nat.sub_le t 1) ht, hsb, by rw [hc.2]; exact hnz⟩
      obtain ⟨hlt, hget⟩ := mat2lin_mem hmem
      refine edgeInv_add_edge hA h1 hcur hlt ?_
      rw [hts, hget]
      have h01 : 0 < t := hc.1
      exact ⟨hc.2.symm, hnz, Or.inr ⟨rfl, Or.inr (by omega)⟩⟩
    case _ => exact h1
  split
  case _ hc =>
    have hmem : (t + 1, s) ∈ activeCells mask nT nS :=
      (mem_activeCells mask nT nS (t + 1) s).mpr
        ⟨by omega, hsb, by rw [hc.2]; exact hnz⟩
    obtain ⟨hlt, hget⟩ := mat2lin_mem hmem
    refine edgeInv_add_edge hA h2 hcur hlt ?_
    rw [hts, hget]
    exact ⟨hc.2.symm, hnz, Or.inr ⟨rfl, Or.inl rfl⟩⟩
  case _ => exact h2

/-- Every edge of the built graph satisfies the specification relation. -/
theorem buildMSTAGo_edgeInv (A : Nat → Nat → Bool) (mask : Nat → Nat → Int)
    (nT nS : Nat) (hA : ∀ i j, A i j = A j i) :
    edgeInv A mask nT nS (buildMSTAGo A mask nT nS) := by
  unfold buildMSTAGo
  refine List.foldlRecOn _ _ _ ?_ ?_
  · intro a b hab
    rcases hab with h | h <;> exact absurd h (List.not_mem_nil _)
  · intro g hInv cur hcur
    rw [List.mem_range] at hcur
    have hts : (activeCells mask nT nS)[cur] =
        ((lin2mat (activeCells mask nT nS) cur).1,
         (lin2mat (activeCells mask nT nS) cur).2) := by
      rw [Prod.mk.eta]
      unfold lin2mat
      rw [List.getD_eq_getElem _ _ hcur]
    exact processVert_edgeInv hA hcur hts hInv

/-- Processing vertex `cur = (t, s)` adds the edge to any `q` whose cell is
`edgeSpec`-related to `(t, s)`. -/
theorem processVert_adds {A : Nat → Nat → Bool} {mask : Nat → Nat → Int}
    {nT nS : Nat} {g : Graph} {cur t s q : Nat}
    (hcur : cur < (activeCells mask nT nS).length)
    (hts : (activeCells mask nT nS)[cur] = (t, s))
    (hq : q < (activeCells mask nT nS).length)
    (hspec : edgeSpec A mask (t, s) ((activeCells mask nT nS)[q])) :
    (processVert A mask nT nS (activeCells mask nT nS) g cur t s).hasEdge
      cur q := by
  obtain ⟨hdt, hds, hdnz⟩ := activeCells_getElem_facts mask nT nS q hq
  obtain ⟨hm, hnz, hcase⟩ := hspec
  dsimp only at hm hnz hcase
  simp only [processVert]
  rcases hcase with ⟨hteq, hAv⟩ | ⟨hseq, hsucc | hpred⟩
  · -- spatial neighbor at the same time
    apply ite_add_hasEdge_mono
    apply ite_add_hasEdge_mono
    unfold spatialPass
    refine foldl_pred_of_mem (Q := fun h => h.hasEdge cur q) ?_
      (List.mem_range.mpr hds) ?_ g
    · intro h v hh
      split
      · exact hasEdge_mono _ _ hh
      · exact hh
    · intro h
      have hmask : mask t ((activeCells mask nT nS)[q]).2 = mask t s := by
        conv_lhs => rw [hteq]
        exact hm.symm
      have hcond : (A s ((activeCells mask nT nS)[q]).2 &&
          decide (mask t ((activeCells mask nT nS)[q]).2 = mask t s)) =
            true := by
        rw [Bool.and_eq_true, decide_eq_true_eq]
        exact ⟨hAv, hmask⟩
      rw [if_pos hcond]
      have hidx : mat2lin (activeCells mask nT nS) t
          ((activeCells mask nT nS)[q]).2 = q := by
        conv_lhs => rw [hteq]
        exact mat2lin_getElem mask nT nS q hq
      rw [hidx]
      exact hasEdge_add_edge_self h cur q
  · -- temporal successor: the q-th cell sits at time t + 1
    have hlt : t < nT - 1 := by omega
    have hmask : mask (t + 1) s = mask t s := by
      conv_lhs => rw [← hsucc, hseq]
      exact hm.symm
    have hc3 : t < nT - 1 ∧ mask (t + 1) s = mask t s := ⟨hlt, hmask⟩
    rw [if_pos hc3]
    have hidx : mat2lin (activeCells mask nT nS) (t + 1) s = q := by
      conv_lhs => rw [← hsucc, hseq]
      exact mat2lin_getElem mask nT nS q hq
    rw [hidx]
    exact hasEdge_add_edge_self _ cur q
  · -- temporal predecessor: the q-th cell sits at time t - 1
    apply ite_add_hasEdge_mono
    have h0t : 0 < t := by omega
    have ht1 : t - 1 = ((activeCells mask nT nS)[q]).1 := by omega
    have hmask : mask (t - 1) s = mask t s := by
      conv_lhs => rw [ht1, hseq]
      exact hm.symm
    have hc2 : 0 < t ∧ mask (t - 1) s = mask t s := ⟨h0t, hmask⟩
    rw [if_pos hc2]
    have hidx : mat2lin (activeCells mask nT nS) (t - 1) s = q := by
      conv_lhs => rw [ht1, hseq]
      exact mat2lin_getElem mask nT nS q hq
    rw [hidx]
    exact hasEdge_add_edge_self _ cur q

/-- Every `edgeSpec`-related pair of cells is joined in the built graph. -/
theorem buildMSTAGo_hasEdge_of_spec {A : Nat → Nat → Bool}
    {mask : Nat → Nat → Int} {nT nS : Nat} {p q : Nat}
    (hp : p < (activeCells mask nT nS).length)
    (hq : q < (activeCells mask nT nS).length)
    (hspec : edgeSpec A mask ((activeCells mask nT nS)[p])
      ((activeCells mask nT nS)[q])) :
    (buildMSTAGo A mask nT nS).hasEdge p q := by
  simp only [buildMSTAGo]
  have hts : (activeCells mask nT nS)[p] =
      ((lin2mat (activeCells mask nT nS) p).1,
       (lin2mat (activeCells mask nT nS) p).2) := by
    rw [Prod.mk.eta]
    unfold lin2mat
    rw [List.getD_eq_getElem _ _ hp]
  have mono : ∀ (g : Graph) (y : Nat), g.hasEdge p q →
      (processVert A mask nT nS (activeCells mask nT nS) g y
        (lin2mat (activeCells mask nT nS) y).1
        (lin2mat (activeCells mask nT nS) y).2).hasEdge p q :=
    fun g y h => processVert_hasEdge_mono _ _ _ _ _ _ _ _ _ _ _ h
  have hit : ∀ g : Graph,
      (processVert A mask nT nS (activeCells mask nT nS) g p
        (lin2mat (activeCells mask nT nS) p).1
        (lin2mat (activeCells mask nT nS) p).2).hasEdge p q := by
    intro g
    refine processVert_adds hp hts hq ?_
    rw [← hts]
    exact hspec
  exact foldl_pred_of_mem mono (List.mem_range.mpr hp) hit _

/-- C2: the graph built by `MaskedSpatioTemporalAdjacencyGraph` from a
symmetric boolean spatial adjacency and a {-1, 0, +1} mask has one vertex
per non-zero mask cell, and an edge joins two vertices iff their cells
carry the same non-zero mask value and are spatial-adjacency neighbors at
the same time or temporal ±1 neighbors at the same space. -/
theorem mstag_vertex_edge_spec (A : Nat → Nat → Bool)
    (mask : Nat → Nat → Int) (nT nS : Nat)
    (hA : ∀ i j, A i j = A j i)
    (hval : ∀ t s, mask t s = -1 ∨ mask t s = 0 ∨ mask t s = 1) :
    (buildMSTAGo A mask nT nS).V = (activeCells mask nT nS).length ∧
    (∀ t s, t < nT → s < nS →
      ((∃ p, p < (buildMSTAGo A mask nT nS).V ∧
          lin2mat (activeCells mask nT nS) p = (t, s)) ↔ mask t s ≠ 0)) ∧
    (∀ p q, p < (activeCells mask nT nS).length →
      q < (activeCells mask nT nS).length →
      ((buildMSTAGo A mask nT nS).hasEdge p q ↔
        edgeSpec A mask (lin2mat (activeCells mask nT nS) p)
          (lin2mat (activeCells mask nT nS) q))) := by
  refine ⟨buildMSTAGo_V A mask nT nS, ?_, ?_⟩
  · intro t s htn hsn
    constructor
    · rintro ⟨p, hp, hpe⟩
      rw [buildMSTAGo_V] at hp
      have : lin2mat (activeCells mask nT nS) p =
          (activeCells mask nT nS)[p] :=
        List.getD_eq_getElem _ _ hp
      rw [this] at hpe
      have hmem : (t, s) ∈ activeCells mask nT nS := by
        rw [← hpe]; exact List.getElem_mem hp
      exact ((mem_activeCells mask nT nS t s).mp hmem).2.2
    · intro hnz
      have hmem : (t, s) ∈ activeCells mask nT nS :=
        (mem_activeCells mask nT nS t s).mpr ⟨htn, hsn, hnz⟩
      obtain ⟨hlt, hget⟩ := mat2lin_mem hmem
      refine ⟨mat2lin (activeCells mask nT nS) t s, ?_, ?_⟩
      · rw [buildMSTAGo_V]; exact hlt
      · rw [show lin2mat (activeCells mask nT nS)
            (mat2lin (activeCells mask nT nS) t s) =
            (activeCells mask nT nS)[mat2lin (activeCells mask nT nS) t s]
          from List.getD_eq_getElem _ _ hlt]
        exact hget
  · intro p q hp hq
    have hgp : lin2mat (activeCells mask nT nS) p =
        (activeCells mask nT nS)[p] := List.getD_eq_getElem _ _ hp
    have hgq : lin2mat (activeCells mask nT nS) q =
        (activeCells mask nT nS)[q] := List.getD_eq_getElem _ _ hq
    rw [hgp, hgq]
    constructor
    · intro h
      obtain ⟨ha, hb, hspec⟩ := buildMSTAGo_edgeInv A mask nT nS hA p q h
      exact hspec
    · intro hspec
      exact buildMSTAGo_hasEdge_of_spec hp hq hspec

/-- A concrete symmetric spatial adjacency joining spaces 0 and 1. -/
def sampleA : Nat → Nat → Bool := fun i j => i + j == 1

/-- A concrete mask activating the four cells of the 2×2 grid. -/
def sampleMask : Nat → Nat → Int := fun t s => if t < 2 ∧ s < 2 then 1 else 0

theorem mstag_vertex_edge_spec_witness :
    (buildMSTAGo sampleA sampleMask 2 2).V =
      (activeCells sampleMask 2 2).length ∧
    (∀ t s, t < 2 → s < 2 →
      ((∃ p, p < (buildMSTAGo sampleA sampleMask 2 2).V ∧
          lin2mat (activeCells sampleMask 2 2) p = (t, s)) ↔
        sampleMask t s ≠ 0)) ∧
    (∀ p q, p < (activeCells sampleMask 2 2).length →
      q < (activeCells sampleMask 2 2).length →
      ((buildMSTAGo sampleA sampleMask 2 2).hasEdge p q ↔
        edgeSpec sampleA sampleMask (lin2mat (activeCells sampleMask 2 2) p)
          (lin2mat (activeCells sampleMask 2 2) q))) :=
  mstag_vertex_edge_spec sampleA sampleMask 2 2
    (fun i j => by simp only [sampleA, Nat.add_comm i j])
    (fun t s => by
      unfold sampleMask
      split
      · right; right; rfl
      · right; left; rfl)

theorem add_edge_spec_witness :
    1 ∈ ((⟨2, 0, []⟩ : Graph).add_edge 0 1).adjList 0 ∧
    0 ∈ ((⟨2, 0, []⟩ : Graph).add_edge 0 1).adjList 1 ∧
    (¬ (⟨2, 0, []⟩ : Graph).hasEdge 0 1 →
      ((⟨2, 0, []⟩ : Graph).add_edge 0 1).E = (⟨2, 0, []⟩ : Graph).E + 1) ∧
    (((⟨2, 0, []⟩ : Graph).add_edge 0 1).add_edge 0 1 =
      (⟨2, 0, []⟩ : Graph).add_edge 0 1 ∧
     ((⟨2, 0, []⟩ : Graph).add_edge 0 1).add_edge 1 0 =
      (⟨2, 0, []⟩ : Graph).add_edge 0 1) :=
  add_edge_spec ⟨2, 0, []⟩ 0 1 (by decide) (by decide)
    (fun _ _ h => absurd h (List.not_mem_nil _))

/-! ### Connected components (`CC`, backed by
`scipy.sparse.csgraph.connected_components` with `directed=False`) -/

/-- Neighbors of `v` under the undirected reading of the adjacency matrix
(`directed=False` unions the matrix with its transpose). -/
def Graph.nbrs (g : Graph) (v : Nat) : List Nat :=
  (List.range g.V).filter (fun w => decide (g.hasEdge v w))

/-- One breadth-first expansion step of a vertex front. -/
def ccStep (g : Graph) (s : List Nat) : List Nat :=
  (s ++ s.flatMap g.nbrs).dedup

def ccIter (g : Graph) : Nat → List Nat → List Nat
  | 0, s => s
  | n + 1, s => ccIter g n (ccStep g s)

/-- All vertices reachable from `v`: `V` expansion steps certainly exhaust
the component. -/
def reach (g : Graph) (v : Nat) : List Nat :=
  ccIter g g.V [v]

/-- The representative of `v`'s component: its smallest vertex. -/
def ccRep (g : Graph) (v : Nat) : Nat :=
  (reach g v).foldl min v

/-- Number of connected components: one per representative. -/
def ccCount (g : Graph) : Nat :=
  ((List.range g.V).filter (fun v => ccRep g v == v)).length

/-- The scipy label of `v`'s component.  `connected_components` scans
vertices in ascending order and numbers components in first-discovery
order, so a component's label is the number of components whose smallest
vertex is smaller than this component's smallest vertex. -/
def ccLabel (g : Graph) (v : Nat) : Nat :=
  ((List.range g.V).filter
    (fun u => ccRep g u == u && decide (u < ccRep g v))).length

/-- Model of the class `CC`: component count and the numpy label array. -/
structure CCData where
  count : Nat
  labels : List Nat
deriving DecidableEq, Repr

/-- Model of `CC.__init__`. -/
def ccOf (g : Graph) : CCData :=
  ⟨ccCount g, (List.range g.V).map (ccLabel g)⟩

/-- Model of `CC.id(v)`: numpy 1-D integer indexing into the label array — indices
in `[0, V)` read directly, indices in `[-V, 0)` wrap from the end, and
anything else raises `IndexError`. -/
def CCData.id (cc : CCData) (v : Int) : Except Err Nat :=
  if 0 ≤ v ∧ v < (cc.labels.length : Int) then
    .ok (cc.labels.getD v.toNat 0)
  else if -(cc.labels.length : Int) ≤ v ∧ v < 0 then
    .ok (cc.labels.getD (cc.labels.length - (-v).toNat) 0)
  else .error .indexOutOfRange

/-- Model of `CC.get_components()`: for each label in `[0, K)`, the ascending list
of member vertices. -/
def CCData.get_components (cc : CCData) : List (List Nat) :=
  (List.range cc.count).map (fun i =>
    (List.range cc.labels.length).filter (fun v => cc.labels.getD v 0 == i))

set_option maxRecDepth 10000

/-- A 4-node ring: 0—1—2—3—0 (what claim C5 calls the spatial adjacency). -/
def ringAdj4 : Nat → Nat → Bool := fun i j =>
  decide (i < 4 ∧ j < 4 ∧
    (i + 1 = j ∨ j + 1 = i ∨ (i = 0 ∧ j = 3) ∨ (i = 3 ∧ j = 0)))

/-- Model of the `grid_connectivity` matrix of `test_graphs.py`: the 4-node chain
0—1—2—3 (note: not a ring — rows `[0,1,0,0],[1,0,1,0],[0,1,0,1],[0,0,1,0]`). -/
def chainAdj4 : Nat → Nat → Bool := fun i j =>
  decide (i < 4 ∧ j < 4 ∧ (i + 1 = j ∨ j + 1 = i))

/-- Test case 1's mask: every grid cell active. -/
def fullMask : Nat → Nat → Int := fun _ _ => 1

/-- Test case 2's mask: the middle time row (index 1 of 3) inactive. -/
def gapMask : Nat → Nat → Int := fun t _ => if t = 1 then 0 else 1

/-- C5 counterexample: with a true 4-node *ring* spatial adjacency and the
fully active 2×4 mask the built graph has 12 edges, not the 10 the claim
asserts (each time row contributes 4 ring edges, plus 4 temporal edges). -/
theorem mstag_ring_edge_count :
    (buildMSTAGo ringAdj4 fullMask 2 4).E = 12 ∧
    (buildMSTAGo ringAdj4 fullMask 2 4).E ≠ 10 := by
  constructor
  · decide
  · decide

/-- C5 amended: the spatial adjacency in the repository's test suite is the
4-node chain 0—1—2—3, and with it the fully active 2×4 mask yields
V = 8, E = 10 and one connected component, while the 3×4 mask with the
middle time row inactive yields V = 8, E = 6 and two components. -/
theorem mstag_chain_graph_counts :
    (buildMSTAGo chainAdj4 fullMask 2 4).V = 8 ∧
    (buildMSTAGo chainAdj4 fullMask 2 4).E = 10 ∧
    ccCount (buildMSTAGo chainAdj4 fullMask 2 4) = 1 ∧
    (buildMSTAGo chainAdj4 gapMask 3 4).V = 8 ∧
    (buildMSTAGo chainAdj4 gapMask 3 4).E = 6 ∧
    ccCount (buildMSTAGo chainAdj4 gapMask 3 4) = 2 := by
  refine ⟨by decide, by decide, by decide, by decide, by decide, by decide⟩

/-- The six-vertex, two-component fixture of `test_graphs.py`
(edges 0—1, 1—2, 2—0, 3—4, 4—5). -/
def sampleGraph : Graph :=
  (((((⟨6, 0, []⟩ : Graph).add_edge 0 1).add_edge 1 2).add_edge
    2 0).add_edge 3 4).add_edge 4 5

/-- C8 counterexample: `CC.id(-1)` does not raise — numpy's negative
indexing wraps around, returning the label of the last vertex. -/
theorem cc_id_negative_index :
    (ccOf sampleGraph).id (-1) = .ok 1 ∧
    (ccOf sampleGraph).id (-1) ≠ .error .indexOutOfRange := by
  constructor
  · decide
  · decide

/-- C8 amended: `CC.id(v)` returns the label of vertex `v` for
`0 ≤ v < V`, wraps negative indices in `[-V, 0)` to vertex `V + v` as
numpy does, and raises `IndexError` exactly for `v ≥ V` or `v < -V`. -/
theorem cc_id_spec (g : Graph) (v : Int) :
    (0 ≤ v → v < (g.V : Int) → (ccOf g).id v = .ok (ccLabel g v.toNat)) ∧
    ((g.V : Int) ≤ v ∨ v < -(g.V : Int) →
      (ccOf g).id v = .error .indexOutOfRange) ∧
    (-(g.V : Int) ≤ v → v < 0 →
      (ccOf g).id v = .ok (ccLabel g (g.V - (-v).toNat))) := by
  have hlen : (ccOf g).labels.length = g.V := by
    simp [ccOf]
  refine ⟨?_, ?_, ?_⟩
  · intro h0 hv
    unfold CCData.id
    rw [hlen]
    rw [if_pos ⟨h0, hv⟩]
    have hvn : v.toNat < ((ccOf g).labels).length := by
      rw [hlen]; omega
    rw [List.getD_eq_getElem _ _ hvn]
    simp [ccOf]
  · intro hv
    unfold CCData.id
    rw [hlen]
    rw [if_neg (by omega), if_neg (by omega)]
  · intro hge hlt
    unfold CCData.id
    rw [hlen]
    rw [if_neg (by omega), if_pos ⟨hge, hlt⟩]
    have hvn : g.V - (-v).toNat < ((ccOf g).labels).length := by
      rw [hlen]; omega
    rw [List.getD_eq_getElem _ _ hvn]
    simp [ccOf]

theorem cc_id_spec_witness :
    (ccOf sampleGraph).id 2 = .ok (ccLabel sampleGraph 2) ∧
    (ccOf sampleGraph).id 7 = .error .indexOutOfRange ∧
    (ccOf sampleGraph).id (-6) = .ok (ccLabel sampleGraph 0) :=
  ⟨(cc_id_spec sampleGraph 2).1 (by decide) (by decide),
   (cc_id_spec sampleGraph 7).2.1 (Or.inl (by decide)),
   (cc_id_spec sampleGraph (-6)).2.2 (by decide) (by decide)⟩

/-! ### stats.py: thresholding, clustering, permutation loop, p-values.

Floating-point statistics are embedded as rationals; all the properties
at stake are order-theoretic or exact, so any linear ordered field works. -/

/-- Model of `compute_cluster_level_stats`: sum the statistic map over each
cluster's (time, space) coordinates (`stat_map[cluster]` pairs the time
and space index arrays elementwise). -/
def compute_cluster_level_stats (stat_map : Nat → Nat → ℚ)
    (clusters : List (List Nat × List Nat)) : List ℚ :=
  clusters.map (fun c => ((c.1.zip c.2).map (fun p => stat_map p.1 p.2)).sum)

/-- Model of `compute_cluster_p_value` exactly as written in stats.py: note that in
the two-tailed branch the *signed* observed statistic is compared against
`abs(ms)`. -/
def compute_cluster_p_value (cluster_stat : ℚ) (cluster_stats_H0 : List ℚ)
    (tail : Int) : ℚ :=
  if tail = 1 then
    (cluster_stats_H0.countP (fun ms => decide (cluster_stat < ms)) : ℚ) /
      cluster_stats_H0.length
  else if tail = -1 then
    (cluster_stats_H0.countP (fun ms => decide (ms < cluster_stat)) : ℚ) /
      cluster_stats_H0.length
  else
    (cluster_stats_H0.countP (fun ms => decide (cluster_stat < |ms|)) : ℚ) /
      cluster_stats_H0.length

/-- The thresholded mask built per key in `find_clusters`: tail=+1 gives
`(t_map > thresh).astype(int)`, tail=-1 gives `(t_map < thresh).astype(int)`
(note: entries 0/+1, not -1), and any other tail gives the two-tailed
difference of indicator masks. -/
def threshold_mask (tail : Int) (thresh : ℚ) (t_map : Nat → Nat → ℚ)
    (t s : Nat) : Int :=
  if tail = 1 then (if thresh < t_map t s then 1 else 0)
  else if tail = -1 then (if t_map t s < thresh then 1 else 0)
  else
    (if thresh < t_map t s then 1 else 0) -
      (if t_map t s < -thresh then 1 else 0)

/-- Model of `MaskedSpatioTemporalAdjacencyGraph.components2mat`: components
given by linear vertex indices, re-expressed as parallel (times, spaces)
index sequences. -/
def components2mat (cells : List (Nat × Nat))
    (components : List (List Nat)) : List (List Nat × List Nat) :=
  components.map (fun comp =>
    (comp.map (fun i => (lin2mat cells i).1),
     comp.map (fun i => (lin2mat cells i).2)))

/-- The per-key clustering stage of `find_clusters` for one statistic map:
threshold into a mask, and if any cell is active build the masked graph,
extract connected components and their cluster-level statistics; an
all-zero mask short-circuits to empty lists. -/
def find_clusters_key (A : Nat → Nat → Bool) (nT nS : Nat)
    (t_map : Nat → Nat → ℚ) (thresh : ℚ) (tail : Int) :
    Except Err (List (List Nat × List Nat) × List ℚ) :=
  let mask := threshold_mask tail thresh t_map
  if (activeCells mask nT nS).isEmpty then .ok ([], [])
  else
    match MSTAG A mask nT nS with
    | .error e => .error e
    | .ok g =>
      let clusters := components2mat (activeCells mask nT nS)
        (ccOf g).get_components
      .ok (clusters, compute_cluster_level_stats t_map clusters)

/-- Python's `max` on a non-empty list (the empty case is never used). -/
def pymax : List ℚ → ℚ
  | [] => 0
  | x :: xs => xs.foldl max x

/-- Python's `min` on a non-empty list (the empty case is never used). -/
def pymin : List ℚ → ℚ
  | [] => 0
  | x :: xs => xs.foldl min x

/-- The body of the permutation loop for one key and one permutation:
append the extreme cluster statistic (or 0 when there is no cluster). -/
def extremeStat (tail : Int) (stats : List ℚ) : ℚ :=
  if stats.isEmpty then 0
  else if tail = 1 then pymax stats
  else if tail = -1 then pymin stats
  else pymax (stats.map (fun x => |x|))

/-- The permutation loop of
`spatio_temporal_permutation_test_for_correlations` for one key:
`perm_stats` lists, permutation by permutation, the cluster statistics
that `find_clusters` returned for this key; each iteration appends
exactly one value to the key's null distribution. -/
def permLoop (tail : Int) (perm_stats : List (List ℚ)) : List ℚ :=
  perm_stats.foldl (fun acc stats => acc ++ [extremeStat tail stats]) []

theorem foldl_max_mem (xs : List ℚ) (x : ℚ) : xs.foldl max x ∈ x :: xs := by
  induction xs generalizing x with
  | nil => simp
  | cons y ys ih =>
    rw [List.foldl_cons]
    rcases List.mem_cons.mp (ih (max x y)) with he | he
    · rcases max_choice x y with hc | hc
      · rw [he, hc]; exact List.mem_cons_self _ _
      · rw [he, hc]; exact List.mem_cons_of_mem _ (List.mem_cons_self _ _)
    · exact List.mem_cons_of_mem _ (List.mem_cons_of_mem _ he)

theorem seed_le_foldl_max (xs : List ℚ) (x : ℚ) : x ≤ xs.foldl max x := by
  induction xs generalizing x with
  | nil => exact le_refl x
  | cons y ys ih =>
    rw [List.foldl_cons]
    exact le_trans (le_max_left x y) (ih (max x y))

theorem le_foldl_max (xs : List ℚ) (x z : ℚ) (hz : z ∈ x :: xs) :
    z ≤ xs.foldl max x := by
  induction xs generalizing x with
  | nil =>
    rw [List.mem_singleton] at hz
    exact le_of_eq hz
  | cons y ys ih =>
    rw [List.foldl_cons]
    rcases List.mem_cons.mp hz with rfl | hz'
    · exact le_trans (le_max_left z y) (seed_le_foldl_max ys (max z y))
    · rcases List.mem_cons.mp hz' with rfl | hz''
      · exact le_trans (le_max_right x z) (seed_le_foldl_max ys (max x z))
      · exact ih _ (List.mem_cons_of_mem _ hz'')

theorem foldl_min_mem (xs : List ℚ) (x : ℚ) : xs.foldl min x ∈ x :: xs := by
  induction xs generalizing x with
  | nil => simp
  | cons y ys ih =>
    rw [List.foldl_cons]
    rcases List.mem_cons.mp (ih (min x y)) with he | he
    · rcases min_choice x y with hc | hc
      · rw [he, hc]; exact List.mem_cons_self _ _
      · rw [he, hc]; exact List.mem_cons_of_mem _ (List.mem_cons_self _ _)
    · exact List.mem_cons_of_mem _ (List.mem_cons_of_mem _ he)

theorem foldl_min_le_seed (xs : List ℚ) (x : ℚ) : xs.foldl min x ≤ x := by
  induction xs generalizing x with
  | nil => exact le_refl x
  | cons y ys ih =>
    rw [List.foldl_cons]
    exact le_trans (ih (min x y)) (min_le_left x y)

theorem foldl_min_le (xs : List ℚ) (x z : ℚ) (hz : z ∈ x :: xs) :
    xs.foldl min x ≤ z := by
  induction xs generalizing x with
  | nil =>
    rw [List.mem_singleton] at hz
    exact le_of_eq hz.symm
  | cons y ys ih =>
    rw [List.foldl_cons]
    rcases List.mem_cons.mp hz with rfl | hz'
    · exact le_trans (foldl_min_le_seed ys (min z y)) (min_le_left z y)
    · rcases List.mem_cons.mp hz' with rfl | hz''
      · exact le_trans (foldl_min_le_seed ys (min x z)) (min_le_right x z)
      · exact ih _ (List.mem_cons_of_mem _ hz'')

theorem pymax_mem {l : List ℚ} (h : l ≠ []) : pymax l ∈ l := by
  cases l with
  | nil => exact absurd rfl h
  | cons x xs => exact foldl_max_mem xs x

theorem le_pymax {l : List ℚ} {x : ℚ} (h : x ∈ l) : x ≤ pymax l := by
  cases l with
  | nil => cases h
  | cons y ys => exact le_foldl_max ys y x h

theorem pymin_mem {l : List ℚ} (h : l ≠ []) : pymin l ∈ l := by
  cases l with
  | nil => exact absurd rfl h
  | cons x xs => exact foldl_min_mem xs x

theorem pymin_le {l : List ℚ} {x : ℚ} (h : x ∈ l) : pymin l ≤ x := by
  cases l with
  | nil => cases h
  | cons y ys => exact foldl_min_le ys y x h

theorem foldl_append_singleton {α β : Type} (f : α → β) (l : List α)
    (acc : List β) :
    l.foldl (fun a x => a ++ [f x]) acc = acc ++ l.map f := by
  induction l generalizing acc with
  | nil => simp
  | cons hd tl ih => simp [ih]

theorem permLoop_eq_map (tail : Int) (l : List (List ℚ)) :
    permLoop tail l = l.map (extremeStat tail) := by
  unfold permLoop
  rw [foldl_append_singleton]
  simp

/-- What one loop iteration appends: 0 for no clusters, otherwise the
maximum, minimum or maximum-absolute cluster statistic depending on tail. -/
theorem extremeStat_spec (tail : Int) (e : List ℚ) :
    (e = [] → extremeStat tail e = 0) ∧
    (e ≠ [] →
      ((tail = 1 → extremeStat tail e ∈ e ∧ ∀ x ∈ e, x ≤ extremeStat tail e) ∧
       (tail = -1 →
         extremeStat tail e ∈ e ∧ ∀ x ∈ e, extremeStat tail e ≤ x) ∧
       (tail ≠ 1 → tail ≠ -1 →
         (∃ y ∈ e, extremeStat tail e = |y|) ∧
         ∀ x ∈ e, |x| ≤ extremeStat tail e))) := by
  constructor
  · rintro rfl
    simp [extremeStat]
  · intro hne
    have hie : e.isEmpty = false := by
      cases e
      · exact absurd rfl hne
      · rfl
    refine ⟨?_, ?_, ?_⟩
    · rintro rfl
      rw [show extremeStat 1 e = pymax e by simp [extremeStat, hie]]
      exact ⟨pymax_mem hne, fun x hx => le_pymax hx⟩
    · rintro rfl
      rw [show extremeStat (-1) e = pymin e by simp [extremeStat, hie]]
      exact ⟨pymin_mem hne, fun x hx => pymin_le hx⟩
    · intro h1 h2
      rw [show extremeStat tail e = pymax (e.map (fun x => |x|)) by
        simp [extremeStat, hie, h1, h2]]
      have hme : e.map (fun x => |x|) ≠ [] := by
        cases e
        · exact absurd rfl hne
        · simp
      constructor
      · have := pymax_mem hme
        rw [List.mem_map] at this
        obtain ⟨y, hy, he⟩ := this
        exact ⟨y, hy, he.symm⟩
      · intro x hx
        exact le_pymax (List.mem_map_of_mem _ hx)

/-- C3: per key, the permutation loop appends exactly one value per
permutation (final length = number of permutations), and that value is the
maximum cluster statistic for tail=+1, the minimum for tail=-1, the
maximum absolute value for any other tail, and 0 when the permutation
produced no cluster for that key. -/
theorem permutation_null_distribution_spec (tail : Int)
    (perm_stats : List (List ℚ)) :
    (permLoop tail perm_stats).length = perm_stats.length ∧
    (∀ i, i < perm_stats.length →
      ((perm_stats.getD i [] = [] → (permLoop tail perm_stats).getD i 0 = 0) ∧
       (perm_stats.getD i [] ≠ [] →
         ((tail = 1 →
            (permLoop tail perm_stats).getD i 0 ∈ perm_stats.getD i [] ∧
            ∀ x ∈ perm_stats.getD i [],
              x ≤ (permLoop tail perm_stats).getD i 0) ∧
          (tail = -1 →
            (permLoop tail perm_stats).getD i 0 ∈ perm_stats.getD i [] ∧
            ∀ x ∈ perm_stats.getD i [],
              (permLoop tail perm_stats).getD i 0 ≤ x) ∧
          (tail ≠ 1 → tail ≠ -1 →
            (∃ y ∈ perm_stats.getD i [],
              (permLoop tail perm_stats).getD i 0 = |y|) ∧
            ∀ x ∈ perm_stats.getD i [],
              |x| ≤ (permLoop tail perm_stats).getD i 0))))) := by
  rw [permLoop_eq_map]
  refine ⟨List.length_map _ _, ?_⟩
  intro i hi
  have hi' : i < (perm_stats.map (extremeStat tail)).length := by
    rw [List.length_map]; exact hi
  have hv : (perm_stats.map (extremeStat tail)).getD i 0 =
      extremeStat tail (perm_stats.getD i []) := by
    rw [List.getD_eq_getElem _ _ hi', List.getElem_map,
      List.getD_eq_getElem _ _ hi]
  rw [hv]
  exact extremeStat_spec tail (perm_stats.getD i [])

theorem permutation_null_distribution_spec_witness :
    (permLoop 0 [[(1 : ℚ), -3], []]).length = 2 ∧
    (∃ y ∈ [(1 : ℚ), -3], (permLoop 0 [[(1 : ℚ), -3], []]).getD 0 0 = |y|) ∧
    (∀ x ∈ [(1 : ℚ), -3], |x| ≤ (permLoop 0 [[(1 : ℚ), -3], []]).getD 0 0) ∧
    (permLoop 0 [[(1 : ℚ), -3], []]).getD 1 0 = 0 := by
  have h := permutation_null_distribution_spec 0 [[(1 : ℚ), -3], []]
  have h0 := ((h.2 0 (by norm_num)).2 (by simp)).2.2 (by decide) (by decide)
  have h1 := (h.2 1 (by norm_num)).1 (by simp)
  exact ⟨h.1, h0.1, h0.2, h1⟩

/-- C1 (code bug): for tail=0 the code computes the fraction of null values
with `abs(ms) > c` for the *signed* observed statistic `c`, not
`abs(ms) > abs(c)`: at `c = -1` with null distribution `[0]` it returns 1
while the specified two-tailed p-value is 0, and the result depends on the
sign of `c`. -/
theorem compute_cluster_p_value_two_tailed_signed :
    compute_cluster_p_value (-1) [0] 0 = 1 ∧
    compute_cluster_p_value 1 [0] 0 = 0 ∧
    compute_cluster_p_value (-1) [0] 0 ≠ compute_cluster_p_value 1 [0] 0 := by
  refine ⟨?_, ?_, ?_⟩ <;> norm_num [compute_cluster_p_value]

/-- C6 counterexample: for tail=-1 the mask is `+1` (not `-1`) where the
statistic is below threshold — `(t_map < thresh).astype(int)` produces
0/1 indicators. -/
theorem threshold_mask_neg_tail_value :
    threshold_mask (-1) 1 (fun _ _ => 0) 0 0 = 1 ∧
    threshold_mask (-1) 1 (fun _ _ => 0) 0 0 ≠ -1 := by
  constructor
  · norm_num [threshold_mask]
  · norm_num [threshold_mask]

/-- C6 amended: for tail=-1 the mask is `+1` at every cell whose statistic
is strictly below `thresh` and 0 elsewhere; it never takes the value -1. -/
theorem threshold_mask_neg_tail_spec (thresh : ℚ) (t_map : Nat → Nat → ℚ)
    (t s : Nat) :
    (threshold_mask (-1) thresh t_map t s = 1 ↔ t_map t s < thresh) ∧
    (threshold_mask (-1) thresh t_map t s = 0 ↔ ¬ t_map t s < thresh) ∧
    threshold_mask (-1) thresh t_map t s ≠ -1 := by
  unfold threshold_mask
  rw [if_neg (by decide : ¬ ((-1 : Int) = 1)), if_pos rfl]
  split
  case _ h => simp [h]
  case _ h => simp [h]

/-- C10: every entry of the two-tailed mask lies in {-1, 0, +1} — even for
negative thresholds, where a cell can satisfy both `value > thresh` and
`value < -thresh` and the two indicators cancel to 0. -/
theorem threshold_mask_two_tailed_range (thresh : ℚ) (t_map : Nat → Nat → ℚ)
    (t s : Nat) :
    threshold_mask 0 thresh t_map t s = -1 ∨
    threshold_mask 0 thresh t_map t s = 0 ∨
    threshold_mask 0 thresh t_map t s = 1 := by
  unfold threshold_mask
  rw [if_neg (by decide : ¬ ((0 : Int) = 1)),
    if_neg (by decide : ¬ ((0 : Int) = -1))]
  split <;> split <;> norm_num

/-- C9: when the thresholded mask of a key is entirely zero,
`find_clusters` returns empty cluster and statistic lists for that key
without any error (and without building a graph). -/
theorem find_clusters_key_all_zero (A : Nat → Nat → Bool) (nT nS : Nat)
    (t_map : Nat → Nat → ℚ) (thresh : ℚ) (tail : Int)
    (hz : ∀ t s, t < nT → s < nS → threshold_mask tail thresh t_map t s = 0) :
    find_clusters_key A nT nS t_map thresh tail = .ok ([], []) := by
  have hcells : activeCells (threshold_mask tail thresh t_map) nT nS = [] := by
    unfold activeCells
    rw [List.filter_eq_nil_iff]
    rintro ⟨c1, c2⟩ hc
    rw [mem_cellList] at hc
    simp only [decide_eq_true_eq, not_not]
    exact hz c1 c2 hc.1 hc.2
  simp only [find_clusters_key]
  rw [hcells]
  rfl

theorem find_clusters_key_all_zero_witness :
    find_clusters_key (fun _ _ => false) 1 1 (fun _ _ => 0) 1 1 =
      .ok ([], []) :=
  find_clusters_key_all_zero (fun _ _ => false) 1 1 (fun _ _ => 0) 1 1
    (fun t s _ _ => by norm_num [threshold_mask])

end Permute
